import Mathlib

/-!
Shallow embedding of the BART equation-assembly and iteration core
(`EquationBase<dim>` and `PowerIteration<dim>`), with theorems checking the
natural-language specification against the code.

Conventions of the embedding:
* C++ `double` is modelled by `ℚ` (exact arithmetic; the spec's claims are
  about exact algebraic relations, "within floating-point tolerance").
* distributed PETSc vectors are modelled as functions `Nat → ℚ` from (global)
  degree-of-freedom index to value, or as abstract elements of an additive
  commutative monoid where only their additive structure matters.
* `AssertThrow (cond, msg)` is modelled by returning `Option`/failure `none`
  when `cond` is false: deal.II's AssertThrow is active in all build modes and
  aborts the run.
* virtual integrator hooks (`integrate_cell_bilinear_form`, ...) that derived
  transport models override are abstracted as function parameters.
-/

namespace BART

/-! ### Component index maps (C1)

`EquationBase` consults two hash maps produced by `AQBase`:
`component_index : (direction, group) ↦ k` and
`inverse_component_index : k ↦ (direction, group)`.
The map-building code (`AQBase::initialize_component_index`) is not part of
the sources; only its accessors are.  The maps themselves are modelled from
the spec. -/

/-- Modelled from the spec: `AQBase::initialize_component_index` (absent from
the sources; only a mock appears in the tests) builds "a total ordering of
n_dir×n_group components"; the canonical flattening orders components by
direction then group, `k = i_dir * n_group + g`. -/
def component_index (n_group : Nat) (i_dir g : Nat) : Nat :=
  i_dir * n_group + g

/-- Modelled from the spec: the inverse map maintained in lockstep with
`component_index`, sending a component index `k` back to its
(direction, group) pair. -/
def inverse_component_index (n_group : Nat) (k : Nat) : Nat × Nat :=
  (k / n_group, k % n_group)

/-- `EquationBase<dim>::get_component_index`: retrieve the component index
given direction and group (lookup in the `component_index` hash table). -/
def get_component_index (n_group : Nat) (incident_angle_index g : Nat) : Nat :=
  component_index n_group incident_angle_index g

/-- `EquationBase<dim>::get_component_direction`: first entry of the
`inverse_component_index` lookup. -/
def get_component_direction (n_group : Nat) (comp_ind : Nat) : Nat :=
  (inverse_component_index n_group comp_ind).1

/-- `EquationBase<dim>::get_component_group`: second entry of the
`inverse_component_index` lookup. -/
def get_component_group (n_group : Nat) (comp_ind : Nat) : Nat :=
  (inverse_component_index n_group comp_ind).2

/-! ### Fission transfer scaling (C3, C4)

`EquationBase<dim>::scale_fiss_transfer_matrices (double keff)`:
asserts `is_eigen_problem`; resizes `scaled_fiss_transfer_per_ster` to
`n_material`; for each material `m` builds an `n_group × n_group` matrix
`tmp` of value-initialised (zero) doubles, and only when
`is_material_fissile[m]` fills `tmp[gin][g] = all_ksi_nusigf_per_ster[m][gin][g] / keff`. -/

def scale_fiss_transfer_matrices
    (is_eigen_problem : Bool) (n_material n_group : Nat)
    (is_material_fissile : Nat → Bool)
    (all_ksi_nusigf_per_ster : Nat → Nat → Nat → ℚ)
    (keff : ℚ) : Option (List (List (List ℚ))) :=
  if is_eigen_problem then
    some ((List.range n_material).map (fun m =>
      if is_material_fissile m then
        (List.range n_group).map (fun gin =>
          (List.range n_group).map (fun g =>
            all_ksi_nusigf_per_ster m gin g / keff))
      else
        (List.range n_group).map (fun _ =>
          (List.range n_group).map (fun _ => (0 : ℚ)))))
  else none

/-! ### Bilinear-form assembly dispatch (C5)

`EquationBase<dim>::assemble_bilinear_form ()`: always assembles the
volumetric+boundary forms; if `discretization == "dfem"` it asserts
`equation_name == "ep"` and then assembles the interface forms; finally
initialises the preconditioners. -/

/-- The externally observable actions of `assemble_bilinear_form`. -/
inductive AssembleAction where
  | volumeBoundary : AssembleAction
  | interface : AssembleAction
  | initPreconditioners : AssembleAction
deriving DecidableEq, Repr

/-- `EquationBase<dim>::assemble_bilinear_form`, as the sequence of actions it
performs; `none` models the `AssertThrow (equation_name=="ep")` failure. -/
def assemble_bilinear_form (discretization equation_name : String) :
    Option (List AssembleAction) :=
  if discretization = "dfem" then
    if equation_name = "ep" then
      some [AssembleAction.volumeBoundary, AssembleAction.interface,
            AssembleAction.initPreconditioners]
    else none
  else
    some [AssembleAction.volumeBoundary, AssembleAction.initPreconditioners]

/-! ### System matrices/vectors initialisation (C9)

`EquationBase<dim>::initialize_system_matrices_vectors`: pushes one fresh
(reinitialised) system matrix, angular-flux vector, right-hand-side vector and
fixed right-hand-side vector per component; asserts
`sflxes_proc.size()==n_group`; then shapes each group's scalar-flux vector and
fills it with unit values. -/

/-- A distributed PETSc vector, as global dof index ↦ value. -/
abbrev DofV := Nat → ℚ

/-- The four per-component collections owned by an `EquationBase` instance
(matrices are kept abstract: only their count matters here). -/
structure SystemState where
  sys_mats : List Unit
  sys_aflxes : List DofV
  sys_rhses : List DofV
  sys_fixed_rhses : List DofV

/-- One trip of the `for (i=0; i<n_total_vars; ++i)` loop: `push_back` a fresh
matrix and three fresh vectors (reinit ⇒ zero-valued). -/
def push_component (st : SystemState) (_i : Nat) : SystemState :=
  { sys_mats := st.sys_mats ++ [()],
    sys_aflxes := st.sys_aflxes ++ [fun _ => 0],
    sys_rhses := st.sys_rhses ++ [fun _ => 0],
    sys_fixed_rhses := st.sys_fixed_rhses ++ [fun _ => 0] }

/-- `EquationBase<dim>::initialize_system_matrices_vectors`. -/
def initialize_system_matrices_vectors (n_total_vars n_group : Nat)
    (sflxes_proc : List DofV) : Option (SystemState × List DofV) :=
  let st := (List.range n_total_vars).foldl push_component ⟨[], [], [], []⟩
  if sflxes_proc.length = n_group then
    some (st, (List.range n_group).map (fun _ => (fun _ => (1 : ℚ) : DofV)))
  else none

/-! ### Moment generation (C7, C10)

Three overloads of `EquationBase<dim>::generate_moments`.  All loop over the
directions of one group with
`i = get_component_index(i_dir, g); aflxes_proc[i] = *sys_aflxes[i];
sflx.add (wi[i_dir], aflxes_proc[i])`. -/

/-- The inner direction loop shared by the `generate_moments` overloads:
starting from a zeroed scalar flux, for each direction copy the global angular
flux into `aflxes_proc` and add it, weighted by `wi[i_dir]`, to the scalar
flux.  Returns the scalar flux and the updated `aflxes_proc`. -/
def sweep_directions (n_dir : Nat) (wi : Nat → ℚ) (cidx : Nat → Nat → Nat)
    (sys_aflxes : Nat → DofV) (g : Nat) (aflxes_proc : Nat → DofV) :
    DofV × (Nat → DofV) :=
  (List.range n_dir).foldl
    (fun acc i_dir =>
      let i := cidx i_dir g
      let afl := Function.update acc.2 i (sys_aflxes i)
      ((fun x => acc.1 x + wi i_dir * afl i x : DofV), afl))
    ((fun _ => 0 : DofV), aflxes_proc)

/-- `EquationBase<dim>::generate_moments (sflx_proc, sflx_proc_old, g)`
(single group): asserts the equation is not NDA; copies the current scalar
flux into the old one; rebuilds the scalar flux of group `g` as the
weight-weighted sum of the angular fluxes.  Returns
(new scalar flux, new old scalar flux, updated `aflxes_proc`). -/
def generate_moments_one_group (equation_name : String)
    (n_dir : Nat) (wi : Nat → ℚ) (cidx : Nat → Nat → Nat)
    (sys_aflxes aflxes_proc : Nat → DofV)
    (sflx_proc _sflx_proc_old : DofV) (g : Nat) :
    Option (DofV × DofV × (Nat → DofV)) :=
  if equation_name = "nda" then none
  else
    let res := sweep_directions n_dir wi cidx sys_aflxes g aflxes_proc
    some (res.1, sflx_proc, res.2)

/-- `EquationBase<dim>::generate_moments (sflxes_proc, sflxes_proc_old)`
(all groups at once): asserts `equation_name!="nda" && do_nda`; then per
group saves the old scalar flux and rebuilds the new one by the direction
sweep. -/
def generate_moments_all_groups (equation_name : String) (do_nda : Bool)
    (n_group n_dir : Nat) (wi : Nat → ℚ) (cidx : Nat → Nat → Nat)
    (sys_aflxes aflxes_proc : Nat → DofV)
    (sflxes_proc _sflxes_proc_old : List DofV) :
    Option (List DofV × List DofV × (Nat → DofV)) :=
  if equation_name ≠ "nda" ∧ do_nda = true then
    let res := (List.range n_group).foldl
      (fun acc g =>
        let sw := sweep_directions n_dir wi cidx sys_aflxes g acc.2
        (acc.1 ++ [sw.1], sw.2))
      (([] : List DofV), aflxes_proc)
    some (res.1,
          (List.range n_group).map (fun g => sflxes_proc.getD g (fun _ => 0)),
          res.2)
  else none

/-- `EquationBase<dim>::generate_moments ()` (HO scalar fluxes for NDA):
asserts `equation_name!="nda" && do_nda`; copies all angular fluxes to the
process-local store; per group sets `ho_sflxes_proc[g]` to
`wi[0] * aflx(cidx 0 g)` (`equ`) and adds the remaining weighted directions. -/
def generate_moments_ho (equation_name : String) (do_nda : Bool)
    (n_group n_dir : Nat) (wi : Nat → ℚ) (cidx : Nat → Nat → Nat)
    (sys_aflxes : Nat → DofV) : Option (List DofV) :=
  if equation_name ≠ "nda" ∧ do_nda = true then
    some ((List.range n_group).map (fun g =>
      (List.range (n_dir - 1)).foldl
        (fun acc j => (fun x => acc x + wi (j+1) * sys_aflxes (cidx (j+1) g) x : DofV))
        (fun x => wi 0 * sys_aflxes (cidx 0 g) x)))
  else none

/-! ### Per-group right-hand-side assembly (C8)

`EquationBase<dim>::assemble_linear_form (sflxes_proc, g)`: for every
component `k` with `get_component_group(k)==g`, sets `sys_rhses[k]` to
`sys_fixed_rhses[k]` and then adds, per local cell, a cell right-hand side
made of the scattering linear form plus (for boundary cells) the boundary
linear form; other components and the other collections are untouched.
The virtual integrators are abstracted as functions into an additive
commutative monoid `V` of (scattered) right-hand-side contributions;
matrices live in an arbitrary type `M`. -/

/-- The per-component state that `assemble_linear_form` can see. -/
structure RhsState (M V : Type) where
  sys_mats : Nat → M
  sys_rhses : Nat → V
  sys_fixed_rhses : Nat → V

/-- The cell loop for one component: starting from the fixed right-hand side,
add per cell the scattering contribution plus, when the cell is at the
boundary, the boundary contribution. -/
def cell_rhs_total {V : Type} [AddCommMonoid V] (is_cell_at_bd : List Bool)
    (scat bdry : Nat → Nat → Nat → V) (g i_dir : Nat) (init : V) : V :=
  (List.range is_cell_at_bd.length).foldl
    (fun acc ic =>
      acc + (scat ic g i_dir +
        (if is_cell_at_bd.getD ic false then bdry ic g i_dir else 0)))
    init

/-- One trip of the component loop of `assemble_linear_form`: only components
of the requested group are processed. -/
def process_component {M V : Type} [AddCommMonoid V]
    (group_of dir_of : Nat → Nat) (is_cell_at_bd : List Bool)
    (scat bdry : Nat → Nat → Nat → V) (g : Nat)
    (st : RhsState M V) (k : Nat) : RhsState M V :=
  if group_of k = g then
    let v := cell_rhs_total is_cell_at_bd scat bdry g (dir_of k)
      (st.sys_fixed_rhses k)
    { st with sys_rhses := Function.update st.sys_rhses k v }
  else st

/-- `EquationBase<dim>::assemble_linear_form`. -/
def assemble_linear_form {M V : Type} [AddCommMonoid V]
    (n_total_vars : Nat) (group_of dir_of : Nat → Nat)
    (is_cell_at_bd : List Bool) (scat bdry : Nat → Nat → Nat → V)
    (st : RhsState M V) (g : Nat) : RhsState M V :=
  (List.range n_total_vars).foldl
    (process_component group_of dir_of is_cell_at_bd scat bdry g) st

/-! ### Interface (DG) assembly traversal (C2)

`EquationBase<dim>::assemble_interface_bilinear_form`: per component `k`, for
every locally owned cell and every face `fn`, the four coupling blocks
(vi_ui, vi_ue, ve_ui, ve_ue) are integrated and added to `sys_mats[k]` iff
`!cell->at_boundary(fn) && cell->neighbor(fn)->id() < cell->id()`.
deal.II cell identifiers form a total order; they are modelled as `Nat`. -/

/-- A face of a locally owned cell, as the traversal tests it: at the domain
boundary, or interior with the neighbor cell's identifier. -/
inductive FaceInfo where
  | boundary : FaceInfo
  | interior (neighbor_id : Nat) : FaceInfo
deriving DecidableEq, Repr

/-- A mesh cell as the interface-assembly loop sees it. -/
structure CellInfo where
  id : Nat
  faces : List FaceInfo
deriving DecidableEq, Repr

/-- The faces of one cell on which the interface blocks are added: interior
faces whose neighbor id compares less than the cell's id (the tie-break of
the source); each assembled face is recorded as the (cell id, neighbor id)
pair. -/
def face_assemblies_of (cid : Nat) (faces : List FaceInfo) : List (Nat × Nat) :=
  faces.filterMap (fun f =>
    match f with
    | FaceInfo.boundary => none
    | FaceInfo.interior n => if n < cid then some (cid, n) else none)

/-- The assembled faces of one cell. -/
def face_assemblies (c : CellInfo) : List (Nat × Nat) :=
  face_assemblies_of c.id c.faces

/-- How many times the whole cell loop adds the four interface blocks for the
unordered neighbor pair (a, b) into one component's system matrix (the
component loop repeats the identical cell/face traversal for every
component). -/
def interface_assembly_count (local_cells : List CellInfo) (a b : Nat) : Nat :=
  (local_cells.map (fun c =>
    (face_assemblies c).countP (fun p => p == (a, b) || p == (b, a)))).sum

/-- How many times the traversal visits a face of a cell with id `x` whose
neighbor has id `y`, irrespective of the tie-break: for one shared interior
face of a conforming mesh this is 1 (the face is seen once from the side of
`x`). -/
def face_visit_count (local_cells : List CellInfo) (x y : Nat) : Nat :=
  (local_cells.map (fun c =>
    if c.id = x then c.faces.countP (fun f => f == FaceInfo.interior y)
    else 0)).sum

/-! ### Outer power iteration (C6)

`PowerIteration<dim>::eigen_iterations`: `err_k = err_phi = 1.0`; then
`while (err_k > err_k_tol || err_phi > err_phi_tol)` run the body.  The
collaborator operations invoked by the body live in `EigenBase`, `MGBase`
and the equation objects and are abstracted as functions on a joint state
`S` (scalar fluxes, fission source, keff, previous iterates, systems). -/

/-- The configuration tolerances and collaborator operations of the outer
power iteration. -/
structure PIOps (S : Type) where
  err_k_tol : ℚ
  err_phi_tol : ℚ
  update_prev_sflxes_fiss_src_keff : S → S
  scale_fiss_transfer : S → S
  assemble_fixed_linear_form : S → S
  mg_iterations : S → S
  calculate_fiss_src_keff : S → S
  estimate_phi_diff : S → ℚ
  estimate_k_diff : S → ℚ

/-- One trip of the while-loop body, in source order: update the
previous-iterate snapshot, scale the fission transfer matrices by the current
keff, assemble the fixed (fission) linear form, run the multigroup
iterations, recompute fission source and keff, then compute `err_phi` and
`err_k` from the resulting state.  Returns (err_k, err_phi, new state). -/
def pi_step {S : Type} (ops : PIOps S) (s : S) : ℚ × ℚ × S :=
  let s1 := ops.update_prev_sflxes_fiss_src_keff s
  let s2 := ops.scale_fiss_transfer s1
  let s3 := ops.assemble_fixed_linear_form s2
  let s4 := ops.mg_iterations s3
  let s5 := ops.calculate_fiss_src_keff s4
  let err_phi := ops.estimate_phi_diff s5
  let err_k := ops.estimate_k_diff s5
  (err_k, err_phi, s5)

/-- The while loop of `eigen_iterations`.  The C++ loop has no iteration
cap; `fuel` is an artefact of total modelling — `none` means the loop had
still not exited after `fuel` trips of the guard. -/
def eigen_iterations_loop {S : Type} (ops : PIOps S) :
    Nat → ℚ → ℚ → S → Option S
  | 0, _, _, _ => none
  | fuel+1, err_k, err_phi, s =>
    if err_k > ops.err_k_tol ∨ err_phi > ops.err_phi_tol then
      let r := pi_step ops s
      eigen_iterations_loop ops fuel r.1 r.2.1 r.2.2
    else some s

/-- `PowerIteration<dim>::eigen_iterations`: both error norms start at 1.0. -/
def eigen_iterations {S : Type} (ops : PIOps S) (fuel : Nat) (s : S) :
    Option S :=
  eigen_iterations_loop ops fuel 1 1 s

/-- The iterated loop body: the (err_k, err_phi, state) tuple after `n`
trips of the body. -/
def pi_iterate {S : Type} (ops : PIOps S) (t : ℚ × ℚ × S) : Nat → ℚ × ℚ × S
  | 0 => t
  | n+1 => pi_step ops (pi_iterate ops t n).2.2

/-- Labels for the state-mutating operations the loop body invokes. -/
inductive PIOp where
  | update_prev : PIOp
  | scale_fiss : PIOp
  | assemble_fixed : PIOp
  | mg_iter : PIOp
  | calc_fiss_src_keff : PIOp
deriving DecidableEq, Repr

/-- Logging instantiation of the collaborators: the state is the list of
operations performed so far and every collaborator appends its label, so the
order in which `pi_step` invokes them is observable. -/
def log_ops (tk tphi : ℚ) : PIOps (List PIOp) where
  err_k_tol := tk
  err_phi_tol := tphi
  update_prev_sflxes_fiss_src_keff := fun l => l ++ [PIOp.update_prev]
  scale_fiss_transfer := fun l => l ++ [PIOp.scale_fiss]
  assemble_fixed_linear_form := fun l => l ++ [PIOp.assemble_fixed]
  mg_iterations := fun l => l ++ [PIOp.mg_iter]
  calculate_fiss_src_keff := fun l => l ++ [PIOp.calc_fiss_src_keff]
  estimate_phi_diff := fun _ => tphi
  estimate_k_diff := fun _ => tk

/-! ## Theorems -/

/-- C1: Index map bijectivity — for every valid (direction, group) pair,
`get_component_index` followed by `get_component_direction` /
`get_component_group` recovers the pair, and conversely the inverse map
followed by `get_component_index` recovers every valid component index:
the two maps are exact inverses on all valid inputs. -/
theorem index_map_bijective (n_dir n_group : Nat) (i_dir g : Nat)
    (hd : i_dir < n_dir) (hg : g < n_group) :
    get_component_direction n_group (get_component_index n_group i_dir g) = i_dir ∧
    get_component_group n_group (get_component_index n_group i_dir g) = g ∧
    ∀ k < n_dir * n_group,
      get_component_index n_group
        (get_component_direction n_group k) (get_component_group n_group k) = k := by
  have hpos : 0 < n_group := lt_of_le_of_lt (Nat.zero_le g) hg
  refine ⟨?_, ?_, ?_⟩
  · show (i_dir * n_group + g) / n_group = i_dir
    rw [Nat.add_comm, Nat.add_mul_div_right _ _ hpos, Nat.div_eq_of_lt hg, Nat.zero_add]
  · show (i_dir * n_group + g) % n_group = g
    rw [Nat.add_comm, Nat.add_mul_mod_self_right, Nat.mod_eq_of_lt hg]
  · intro k _
    show k / n_group * n_group + k % n_group = k
    exact Nat.div_add_mod' k n_group

/-- Witness for C1 at n_dir = 4, n_group = 2, i_dir = 3, g = 1. -/
theorem index_map_bijective_witness :
    get_component_direction 2 (get_component_index 2 3 1) = 3 ∧
    get_component_group 2 (get_component_index 2 3 1) = 1 ∧
    ∀ k < 4 * 2,
      get_component_index 2
        (get_component_direction 2 k) (get_component_group 2 k) = k :=
  index_map_bijective 4 2 3 1 (by decide) (by decide)

/-- C3: for a fissile material `m` and `keff ≠ 0`, after
`scale_fiss_transfer_matrices keff` the scaled entry at `[m][gin][g]` equals
`all_ksi_nusigf_per_ster[m][gin][g] / keff` for every group pair. -/
theorem scale_fiss_transfer_fissile
    (n_material n_group : Nat) (is_material_fissile : Nat → Bool)
    (raw : Nat → Nat → Nat → ℚ) (keff : ℚ)
    (m gin g : Nat)
    (hm : m < n_material) (hgin : gin < n_group) (hg : g < n_group)
    (hfiss : is_material_fissile m = true) (hk : keff ≠ 0) :
    ∃ tbl mat row,
      scale_fiss_transfer_matrices true n_material n_group
        is_material_fissile raw keff = some tbl ∧
      tbl[m]? = some mat ∧ mat[gin]? = some row ∧
      row[g]? = some (raw m gin g / keff) := by
  refine ⟨_,
    (List.range n_group).map (fun gin =>
      (List.range n_group).map (fun g => raw m gin g / keff)),
    (List.range n_group).map (fun g => raw m gin g / keff),
    rfl, ?_, ?_, ?_⟩
  · simp [List.getElem?_map, List.getElem?_range hm, hfiss]
  · simp [List.getElem?_map, List.getElem?_range hgin]
  · simp [List.getElem?_map, List.getElem?_range hg]

/-- Witness for C3 at a concrete configuration (2 materials, 2 groups,
material 1 fissile, raw entry 6, keff = 3: scaled entry 2). -/
theorem scale_fiss_transfer_fissile_witness :
    ∃ tbl mat row,
      scale_fiss_transfer_matrices true 2 2
        (fun m => m == 1) (fun _ gin g => (6 : ℚ) + gin + g) 3 = some tbl ∧
      tbl[1]? = some mat ∧ mat[0]? = some row ∧
      row[1]? = some (((6 : ℚ) + 0 + 1) / 3) :=
  scale_fiss_transfer_fissile 2 2 (fun m => m == 1)
    (fun _ gin g => (6 : ℚ) + gin + g) 3 1 0 1
    (by decide) (by decide) (by decide) (by decide) (by norm_num)

/-- C4: for a non-fissile material `m` and any `keff`, after
`scale_fiss_transfer_matrices keff` the matrix for `m` is the
`n_group × n_group` zero matrix. -/
theorem scale_fiss_transfer_non_fissile
    (n_material n_group : Nat) (is_material_fissile : Nat → Bool)
    (raw : Nat → Nat → Nat → ℚ) (keff : ℚ)
    (m : Nat) (hm : m < n_material)
    (hfiss : is_material_fissile m = false) :
    ∃ tbl,
      scale_fiss_transfer_matrices true n_material n_group
        is_material_fissile raw keff = some tbl ∧
      tbl[m]? = some (List.replicate n_group (List.replicate n_group (0 : ℚ))) := by
  refine ⟨_, rfl, ?_⟩
  simp [List.getElem?_map, List.getElem?_range hm, hfiss, List.map_const']

/-- Witness for C4 at a concrete configuration (2 materials, 2 groups,
material 0 non-fissile, keff = 0). -/
theorem scale_fiss_transfer_non_fissile_witness :
    ∃ tbl,
      scale_fiss_transfer_matrices true 2 2
        (fun m => m == 1) (fun _ _ _ => (5 : ℚ)) 0 = some tbl ∧
      tbl[0]? = some (List.replicate 2 (List.replicate 2 (0 : ℚ))) :=
  scale_fiss_transfer_non_fissile 2 2 (fun m => m == 1)
    (fun _ _ _ => (5 : ℚ)) 0 0 (by decide) (by decide)

/-- C5: `assemble_bilinear_form` performs interface (DG) assembly iff the
discretization is "dfem", and with "dfem" it fails fatally (assertion) unless
the equation name is "ep"; it is never silently skipped for a dfem
discretization. -/
theorem assemble_bilinear_form_dispatch (discretization equation_name : String) :
    (discretization ≠ "dfem" →
      assemble_bilinear_form discretization equation_name =
        some [AssembleAction.volumeBoundary, AssembleAction.initPreconditioners]) ∧
    (discretization = "dfem" → equation_name = "ep" →
      assemble_bilinear_form discretization equation_name =
        some [AssembleAction.volumeBoundary, AssembleAction.interface,
              AssembleAction.initPreconditioners]) ∧
    (discretization = "dfem" → equation_name ≠ "ep" →
      assemble_bilinear_form discretization equation_name = none) ∧
    (∀ acts, assemble_bilinear_form discretization equation_name = some acts →
      (AssembleAction.interface ∈ acts ↔
        (discretization = "dfem" ∧ equation_name = "ep"))) := by
  refine ⟨?_, ?_, ?_, ?_⟩
  · intro h; simp [assemble_bilinear_form, h]
  · intro h1 h2; simp [assemble_bilinear_form, h1, h2]
  · intro h1 h2; simp [assemble_bilinear_form, h1, h2]
  · intro acts hacts
    unfold assemble_bilinear_form at hacts
    by_cases h1 : discretization = "dfem"
    · by_cases h2 : equation_name = "ep"
      · simp [h1, h2] at hacts
        subst hacts; simp [h1, h2]
      · simp [h1, h2] at hacts
    · simp [h1] at hacts
      subst hacts; simp [h1]

/-- Witness for C5 at discretization "dfem" and equation "dif" (not even
parity): fatal assertion. -/
theorem assemble_bilinear_form_dispatch_witness :
    assemble_bilinear_form "dfem" "dif" = none :=
  (assemble_bilinear_form_dispatch "dfem" "dif").2.2.1 rfl (by decide)

/-- Lengths of the four collections after the component-push loop. -/
theorem push_component_foldl_lengths (n : Nat) :
    ((List.range n).foldl push_component ⟨[], [], [], []⟩).sys_mats.length = n ∧
    ((List.range n).foldl push_component ⟨[], [], [], []⟩).sys_aflxes.length = n ∧
    ((List.range n).foldl push_component ⟨[], [], [], []⟩).sys_rhses.length = n ∧
    ((List.range n).foldl push_component ⟨[], [], [], []⟩).sys_fixed_rhses.length = n := by
  induction n with
  | zero => simp
  | succ n ih =>
    rw [List.range_succ]
    simp only [List.foldl_append, List.foldl_cons, List.foldl_nil]
    simp [push_component, ih.1, ih.2.1, ih.2.2.1, ih.2.2.2]

/-- C9: `initialize_system_matrices_vectors` fails fatally exactly when the
caller-supplied scalar-flux container does not have size `n_group`; on
success all four per-component collections have length exactly
`n_total_vars`. -/
theorem initialize_system_matrices_vectors_spec
    (n_total_vars n_group : Nat) (sflxes_proc : List DofV) :
    (initialize_system_matrices_vectors n_total_vars n_group sflxes_proc = none ↔
      sflxes_proc.length ≠ n_group) ∧
    (∀ st sflxes',
      initialize_system_matrices_vectors n_total_vars n_group sflxes_proc =
        some (st, sflxes') →
      st.sys_mats.length = n_total_vars ∧
      st.sys_aflxes.length = n_total_vars ∧
      st.sys_rhses.length = n_total_vars ∧
      st.sys_fixed_rhses.length = n_total_vars) := by
  constructor
  · unfold initialize_system_matrices_vectors
    by_cases h : sflxes_proc.length = n_group <;> simp [h]
  · intro st sflxes' hsome
    unfold initialize_system_matrices_vectors at hsome
    by_cases h : sflxes_proc.length = n_group
    · simp only [h, if_pos] at hsome
      obtain ⟨hst, -⟩ := Prod.mk.injEq .. ▸ Option.some.injEq .. ▸ hsome
      exact hst ▸ push_component_foldl_lengths n_total_vars
    · simp [h] at hsome

/-- Witness for C9 at n_total_vars = 3, n_group = 2 and a correctly sized
container. -/
theorem initialize_system_matrices_vectors_spec_witness :
    ∀ st sflxes',
      initialize_system_matrices_vectors 3 2
        [(fun _ => 0 : DofV), (fun _ => 0 : DofV)] = some (st, sflxes') →
      st.sys_mats.length = 3 ∧ st.sys_aflxes.length = 3 ∧
      st.sys_rhses.length = 3 ∧ st.sys_fixed_rhses.length = 3 :=
  (initialize_system_matrices_vectors_spec 3 2
    [(fun _ => 0 : DofV), (fun _ => 0 : DofV)]).2

/-- The scalar flux built by the direction sweep is the weight-weighted sum
over all directions of the corresponding component's angular flux. -/
theorem sweep_directions_fst (n_dir : Nat) (wi : Nat → ℚ) (cidx : Nat → Nat → Nat)
    (sys_aflxes : Nat → DofV) (g : Nat) (aflxes_proc : Nat → DofV) (x : Nat) :
    (sweep_directions n_dir wi cidx sys_aflxes g aflxes_proc).1 x =
      ∑ i_dir ∈ Finset.range n_dir, wi i_dir * sys_aflxes (cidx i_dir g) x := by
  induction n_dir generalizing aflxes_proc with
  | zero => simp [sweep_directions]
  | succ n ih =>
    rw [Finset.sum_range_succ, ← ih aflxes_proc]
    unfold sweep_directions
    rw [List.range_succ]
    simp only [List.foldl_append, List.foldl_cons, List.foldl_nil]
    simp [Function.update_same]

/-- C7: the single-group `generate_moments` sets the new scalar flux to the
sum over all directions of `wi[i_dir]` times the angular flux of component
`get_component_index(i_dir, g)`; in particular, for angular fluxes uniformly
equal to 1, the scalar flux is uniformly the sum of the quadrature weights. -/
theorem generate_moments_weighted_sum (equation_name : String)
    (n_dir : Nat) (wi : Nat → ℚ) (cidx : Nat → Nat → Nat)
    (sys_aflxes aflxes_proc : Nat → DofV)
    (sflx_proc sflx_proc_old : DofV) (g : Nat)
    (hname : equation_name ≠ "nda") :
    ∃ sflx_new old afl,
      generate_moments_one_group equation_name n_dir wi cidx sys_aflxes
        aflxes_proc sflx_proc sflx_proc_old g = some (sflx_new, old, afl) ∧
      (∀ x, sflx_new x =
        ∑ i_dir ∈ Finset.range n_dir, wi i_dir * sys_aflxes (cidx i_dir g) x) ∧
      ((∀ i x, sys_aflxes i x = 1) →
        ∀ x, sflx_new x = ∑ i_dir ∈ Finset.range n_dir, wi i_dir) := by
  refine ⟨(sweep_directions n_dir wi cidx sys_aflxes g aflxes_proc).1,
    sflx_proc, (sweep_directions n_dir wi cidx sys_aflxes g aflxes_proc).2,
    ?_, ?_, ?_⟩
  · unfold generate_moments_one_group
    rw [if_neg hname]
  · intro x
    exact sweep_directions_fst n_dir wi cidx sys_aflxes g aflxes_proc x
  · intro huni x
    rw [sweep_directions_fst n_dir wi cidx sys_aflxes g aflxes_proc x]
    exact Finset.sum_congr rfl (fun i _ => by rw [huni, mul_one])

/-- Witness for C7: 2 directions with weights 3 and 4, angular fluxes
uniformly 1 — the scalar flux is uniformly 7. -/
theorem generate_moments_weighted_sum_witness :
    ∃ sflx_new old afl,
      generate_moments_one_group "ep" 2 (fun i => (3 : ℚ) + i)
        (fun i_dir g => i_dir * 1 + g) (fun _ _ => 1) (fun _ _ => 0)
        (fun _ => 0) (fun _ => 0) 0 = some (sflx_new, old, afl) ∧
      (∀ x, sflx_new x =
        ∑ i_dir ∈ Finset.range 2,
          ((3 : ℚ) + i_dir) * (fun (_ : Nat) (_ : Nat) => (1 : ℚ)) (i_dir * 1 + 0) x) ∧
      ((∀ i x, (fun (_ : Nat) (_ : Nat) => (1 : ℚ)) i x = 1) →
        ∀ x, sflx_new x = ∑ i_dir ∈ Finset.range 2, ((3 : ℚ) + i_dir)) :=
  generate_moments_weighted_sum "ep" 2 (fun i => (3 : ℚ) + i)
    (fun i_dir g => i_dir * 1 + g) (fun _ _ => 1) (fun _ _ => 0)
    (fun _ => 0) (fun _ => 0) 0 (by decide)

/-- C10: the all-groups and zero-argument `generate_moments` overloads both
assert `equation_name != "nda" && do_nda`: they succeed exactly when the
equation is not NDA and `do_nda` holds, so with `do_nda = false` either call
is a fatal assertion even for a non-NDA equation. -/
theorem generate_moments_guard_requires_do_nda (equation_name : String)
    (do_nda : Bool) (n_group n_dir : Nat) (wi : Nat → ℚ)
    (cidx : Nat → Nat → Nat) (sys_aflxes aflxes_proc : Nat → DofV)
    (sflxes_proc sflxes_proc_old : List DofV) :
    (generate_moments_all_groups equation_name false n_group n_dir wi cidx
        sys_aflxes aflxes_proc sflxes_proc sflxes_proc_old = none) ∧
    (generate_moments_ho equation_name false n_group n_dir wi cidx
        sys_aflxes = none) ∧
    (generate_moments_all_groups equation_name do_nda n_group n_dir wi cidx
        sys_aflxes aflxes_proc sflxes_proc sflxes_proc_old ≠ none ↔
      equation_name ≠ "nda" ∧ do_nda = true) ∧
    (generate_moments_ho equation_name do_nda n_group n_dir wi cidx
        sys_aflxes ≠ none ↔
      equation_name ≠ "nda" ∧ do_nda = true) := by
  refine ⟨?_, ?_, ?_, ?_⟩
  · simp [generate_moments_all_groups]
  · simp [generate_moments_ho]
  · unfold generate_moments_all_groups
    by_cases h : equation_name ≠ "nda" ∧ do_nda = true <;> simp [h]
  · unfold generate_moments_ho
    by_cases h : equation_name ≠ "nda" ∧ do_nda = true <;> simp [h]

/-- Unfolding equation for one trip of the component loop. -/
theorem process_component_apply {M V : Type} [AddCommMonoid V]
    (group_of dir_of : Nat → Nat) (is_cell_at_bd : List Bool)
    (scat bdry : Nat → Nat → Nat → V) (g : Nat)
    (st : RhsState M V) (k : Nat) :
    process_component group_of dir_of is_cell_at_bd scat bdry g st k =
      if group_of k = g then
        { st with sys_rhses := (Function.update st.sys_rhses k
            (cell_rhs_total is_cell_at_bd scat bdry g (dir_of k)
              (st.sys_fixed_rhses k))) }
      else st := by
  unfold process_component
  rfl

/-- Characterisation of the component loop of `assemble_linear_form` after
processing the first `n` components: matrices and fixed right-hand sides are
untouched, and `sys_rhses k` is rebuilt exactly for the processed components
of group `g`. -/
theorem assemble_linear_form_foldl_spec {M V : Type} [AddCommMonoid V]
    (group_of dir_of : Nat → Nat) (is_cell_at_bd : List Bool)
    (scat bdry : Nat → Nat → Nat → V) (g : Nat) (st : RhsState M V) (n : Nat) :
    ((List.range n).foldl
      (process_component group_of dir_of is_cell_at_bd scat bdry g) st).sys_mats
        = st.sys_mats ∧
    ((List.range n).foldl
      (process_component group_of dir_of is_cell_at_bd scat bdry g) st).sys_fixed_rhses
        = st.sys_fixed_rhses ∧
    ∀ k, ((List.range n).foldl
      (process_component group_of dir_of is_cell_at_bd scat bdry g) st).sys_rhses k
        = if k < n ∧ group_of k = g then
            cell_rhs_total is_cell_at_bd scat bdry g (dir_of k)
              (st.sys_fixed_rhses k)
          else st.sys_rhses k := by
  induction n with
  | zero => simp
  | succ n ih =>
    rw [List.range_succ]
    simp only [List.foldl_append, List.foldl_cons, List.foldl_nil]
    rw [process_component_apply, ih.2.1]
    by_cases hn : group_of n = g
    · rw [if_pos hn]
      refine ⟨ih.1, rfl, ?_⟩
      intro k
      dsimp only
      rw [Function.update_apply, ih.2.2 k]
      by_cases hk : k = n
      · subst hk
        rw [if_pos rfl, if_pos ⟨Nat.lt_succ_self k, hn⟩]
      · rw [if_neg hk]
        by_cases hg' : group_of k = g
        · by_cases hkn : k < n
          · rw [if_pos ⟨hkn, hg'⟩, if_pos ⟨Nat.lt_succ_of_lt hkn, hg'⟩]
          · have h2 : ¬ (k < n + 1 ∧ group_of k = g) := fun h =>
              hkn (lt_of_le_of_ne (Nat.lt_succ_iff.mp h.1) hk)
            rw [if_neg (fun h => hkn h.1), if_neg h2]
        · rw [if_neg (fun h => hg' h.2), if_neg (fun h => hg' h.2)]
    · rw [if_neg hn]
      refine ⟨ih.1, ih.2.1, ?_⟩
      intro k
      rw [ih.2.2 k]
      by_cases hg' : group_of k = g
      · by_cases hkn : k < n
        · rw [if_pos ⟨hkn, hg'⟩, if_pos ⟨Nat.lt_succ_of_lt hkn, hg'⟩]
        · have hkn1 : ¬ k < n + 1 := by
            intro hlt
            rcases Nat.lt_succ_iff_lt_or_eq.mp hlt with h | h
            · exact hkn h
            · exact hn (h ▸ hg')
          rw [if_neg (fun h => hkn h.1), if_neg (fun h => hkn1 h.1)]
      · rw [if_neg (fun h => hg' h.2), if_neg (fun h => hg' h.2)]

/-- C8: `assemble_linear_form (sflxes_proc, g)` modifies `sys_rhses[k]` only
for components `k` of group `g`, for which it becomes the stored fixed
right-hand side plus the accumulated cell scattering/boundary contributions;
every other `sys_rhses[k]`, every `sys_fixed_rhses[k]` and every system
matrix are left unchanged. -/
theorem assemble_linear_form_frame {M V : Type} [AddCommMonoid V]
    (n_total_vars : Nat) (group_of dir_of : Nat → Nat)
    (is_cell_at_bd : List Bool) (scat bdry : Nat → Nat → Nat → V)
    (st : RhsState M V) (g : Nat) :
    (∀ k, group_of k ≠ g →
      (assemble_linear_form n_total_vars group_of dir_of is_cell_at_bd
        scat bdry st g).sys_rhses k = st.sys_rhses k) ∧
    (∀ k, n_total_vars ≤ k →
      (assemble_linear_form n_total_vars group_of dir_of is_cell_at_bd
        scat bdry st g).sys_rhses k = st.sys_rhses k) ∧
    (∀ k, k < n_total_vars → group_of k = g →
      (assemble_linear_form n_total_vars group_of dir_of is_cell_at_bd
        scat bdry st g).sys_rhses k =
        cell_rhs_total is_cell_at_bd scat bdry g (dir_of k)
          (st.sys_fixed_rhses k)) ∧
    (assemble_linear_form n_total_vars group_of dir_of is_cell_at_bd
      scat bdry st g).sys_fixed_rhses = st.sys_fixed_rhses ∧
    (assemble_linear_form n_total_vars group_of dir_of is_cell_at_bd
      scat bdry st g).sys_mats = st.sys_mats := by
  have h := assemble_linear_form_foldl_spec group_of dir_of is_cell_at_bd
    scat bdry g st n_total_vars
  refine ⟨?_, ?_, ?_, h.2.1, h.1⟩
  · intro k hk
    rw [show assemble_linear_form n_total_vars group_of dir_of is_cell_at_bd
          scat bdry st g =
        (List.range n_total_vars).foldl
          (process_component group_of dir_of is_cell_at_bd scat bdry g) st
        from rfl,
      h.2.2 k, if_neg (fun hc => hk hc.2)]
  · intro k hk
    have : ¬ k < n_total_vars := Nat.not_lt.mpr hk
    rw [show assemble_linear_form n_total_vars group_of dir_of is_cell_at_bd
          scat bdry st g =
        (List.range n_total_vars).foldl
          (process_component group_of dir_of is_cell_at_bd scat bdry g) st
        from rfl,
      h.2.2 k, if_neg (fun hc => this hc.1)]
  · intro k hk hg'
    rw [show assemble_linear_form n_total_vars group_of dir_of is_cell_at_bd
          scat bdry st g =
        (List.range n_total_vars).foldl
          (process_component group_of dir_of is_cell_at_bd scat bdry g) st
        from rfl,
      h.2.2 k, if_pos ⟨hk, hg'⟩]

/-- Per-cell count of assembled faces matching the unordered pair (a, b):
only the side whose neighbor id is smaller than the cell id contributes. -/
theorem face_assemblies_of_countP (cid : Nat) (faces : List FaceInfo)
    (a b : Nat) (hab : a ≠ b) :
    (face_assemblies_of cid faces).countP
        (fun p => p == (a, b) || p == (b, a)) =
      (if cid = a ∧ b < a then
        faces.countP (fun f => f == FaceInfo.interior b) else 0) +
      (if cid = b ∧ a < b then
        faces.countP (fun f => f == FaceInfo.interior a) else 0) := by
  induction faces with
  | nil => simp [face_assemblies_of]
  | cons f fs ih =>
    cases f with
    | boundary =>
      simp only [face_assemblies_of, List.filterMap_cons] at ih ⊢
      simpa [List.countP_cons] using ih
    | interior n =>
      simp only [face_assemblies_of, List.filterMap_cons] at ih ⊢
      by_cases hlt : n < cid
      · simp only [hlt, if_true, List.countP_cons, ih]
        by_cases hca : cid = a <;> by_cases hcb : cid = b <;>
          by_cases hnb : n = b <;> by_cases hna : n = a <;>
          (try simp_all) <;> first | rfl | omega | (split_ifs <;> omega)
      · simp only [hlt, if_false, List.countP_cons, ih]
        by_cases hca : cid = a <;> by_cases hcb : cid = b <;>
          by_cases hnb : n = b <;> by_cases hna : n = a <;>
          (try simp_all) <;> first | rfl | omega | (split_ifs <;> omega)

/-- The assembly count splits by which side of the pair the tie-break
selects. -/
theorem interface_count_eq (local_cells : List CellInfo) (a b : Nat)
    (hab : a ≠ b) :
    interface_assembly_count local_cells a b =
      (if b < a then face_visit_count local_cells a b else 0) +
      (if a < b then face_visit_count local_cells b a else 0) := by
  induction local_cells with
  | nil => simp [interface_assembly_count, face_visit_count]
  | cons c cs ih =>
    simp only [interface_assembly_count, face_visit_count, List.map_cons,
      List.sum_cons] at ih ⊢
    rw [show face_assemblies c = face_assemblies_of c.id c.faces from rfl,
      face_assemblies_of_countP c.id c.faces a b hab, ih]
    by_cases h1 : b < a <;> by_cases h2 : a < b
    · omega
    · simp only [h1, h2, if_true, if_false, and_true, and_false]
      by_cases hca : c.id = a <;> simp [hca] <;> omega
    · simp only [h1, h2, if_true, if_false, and_true, and_false]
      by_cases hcb : c.id = b <;> simp [hcb] <;> omega
    · simp [h1, h2]

/-- C2: for an interior face shared by two neighboring cells `a ≠ b` — the
traversal sees it exactly once from each side — the four interface coupling
blocks are added to the component's system matrix exactly once across the
whole mesh: only the side whose neighbor's cell identifier compares less
than the current cell's identifier assembles it. -/
theorem interface_no_double_count (local_cells : List CellInfo) (a b : Nat)
    (hab : a ≠ b)
    (hvab : face_visit_count local_cells a b = 1)
    (hvba : face_visit_count local_cells b a = 1) :
    interface_assembly_count local_cells a b = 1 := by
  rw [interface_count_eq local_cells a b hab]
  rcases lt_or_gt_of_ne hab with h | h
  · rw [if_neg (by omega), if_pos h, hvba]
  · rw [if_pos h, if_neg (by omega), hvab]

/-- Witness for C2: a two-cell mesh, each cell listing the shared interior
face and a boundary face — the interface blocks are assembled exactly once. -/
theorem interface_no_double_count_witness :
    interface_assembly_count
      [CellInfo.mk 0 [FaceInfo.interior 1, FaceInfo.boundary],
       CellInfo.mk 1 [FaceInfo.interior 0, FaceInfo.boundary]] 0 1 = 1 :=
  interface_no_double_count
    [CellInfo.mk 0 [FaceInfo.interior 1, FaceInfo.boundary],
     CellInfo.mk 1 [FaceInfo.interior 0, FaceInfo.boundary]] 0 1
    (by decide) (by decide) (by decide)

/-- Shifting the start of the iterated loop body by one. -/
theorem pi_iterate_shift {S : Type} (ops : PIOps S) (t : ℚ × ℚ × S) (n : Nat) :
    pi_iterate ops (pi_step ops t.2.2) n = pi_iterate ops t (n + 1) := by
  induction n with
  | zero => rfl
  | succ n ih => show pi_step ops _ = _; rw [ih]; rfl

/-- C6: the outer power-iteration state machine — (i) entry starts both
error norms at 1.0; (ii) one trip of the body applies, in order, the
previous-iterate update, the fission-transfer scaling, the fixed linear-form
assembly, the multigroup iterations and the fission-source/keff
recomputation (observed on the logging instantiation), and computes both
error norms from the state left by the last of them; (iii) the loop exits,
returning the state unchanged, exactly when `err_k ≤ err_k_tol` and
`err_phi ≤ err_phi_tol`, and otherwise runs the body and continues
identically whatever fuel remains; (iv) there is no maximum-iteration cap:
if no iterate ever satisfies both tolerances the loop never exits. -/
theorem eigen_iterations_state_machine :
    (∀ (S : Type) (ops : PIOps S) (fuel : Nat) (s : S),
      eigen_iterations ops fuel s = eigen_iterations_loop ops fuel 1 1 s) ∧
    (∀ (tk tphi : ℚ) (l : List PIOp),
      (pi_step (log_ops tk tphi) l).2.2 =
        l ++ [PIOp.update_prev, PIOp.scale_fiss, PIOp.assemble_fixed,
              PIOp.mg_iter, PIOp.calc_fiss_src_keff]) ∧
    (∀ (S : Type) (ops : PIOps S) (s : S),
      (pi_step ops s).1 = ops.estimate_k_diff (pi_step ops s).2.2 ∧
      (pi_step ops s).2.1 = ops.estimate_phi_diff (pi_step ops s).2.2) ∧
    (∀ (S : Type) (ops : PIOps S) (fuel : Nat) (err_k err_phi : ℚ) (s : S),
      (eigen_iterations_loop ops (fuel + 1) err_k err_phi s = some s ∨
        eigen_iterations_loop ops (fuel + 1) err_k err_phi s =
          eigen_iterations_loop ops fuel (pi_step ops s).1
            (pi_step ops s).2.1 (pi_step ops s).2.2) ∧
      (eigen_iterations_loop ops (fuel + 1) err_k err_phi s =
          eigen_iterations_loop ops fuel (pi_step ops s).1
            (pi_step ops s).2.1 (pi_step ops s).2.2 ↔
        ¬ (err_k ≤ ops.err_k_tol ∧ err_phi ≤ ops.err_phi_tol) ∨
        eigen_iterations_loop ops fuel (pi_step ops s).1
            (pi_step ops s).2.1 (pi_step ops s).2.2 = some s) ∧
      (err_k ≤ ops.err_k_tol ∧ err_phi ≤ ops.err_phi_tol →
        eigen_iterations_loop ops (fuel + 1) err_k err_phi s = some s) ∧
      (err_k > ops.err_k_tol ∨ err_phi > ops.err_phi_tol →
        eigen_iterations_loop ops (fuel + 1) err_k err_phi s =
          eigen_iterations_loop ops fuel (pi_step ops s).1
            (pi_step ops s).2.1 (pi_step ops s).2.2)) ∧
    (∀ (S : Type) (ops : PIOps S) (t : ℚ × ℚ × S),
      (∀ n : Nat, (pi_iterate ops t n).1 > ops.err_k_tol ∨
        (pi_iterate ops t n).2.1 > ops.err_phi_tol) →
      ∀ fuel : Nat,
        eigen_iterations_loop ops fuel t.1 t.2.1 t.2.2 = none) := by
  refine ⟨fun _ _ _ _ => rfl, fun tk tphi l => by simp [pi_step, log_ops],
    fun _ _ _ => ⟨rfl, rfl⟩, ?_, ?_⟩
  · intro S ops fuel err_k err_phi s
    by_cases h : err_k > ops.err_k_tol ∨ err_phi > ops.err_phi_tol
    · have hrun : eigen_iterations_loop ops (fuel + 1) err_k err_phi s =
          eigen_iterations_loop ops fuel (pi_step ops s).1
            (pi_step ops s).2.1 (pi_step ops s).2.2 := by
        show (if err_k > ops.err_k_tol ∨ err_phi > ops.err_phi_tol then _ else _) = _
        rw [if_pos h]
      have hguard : ¬ (err_k ≤ ops.err_k_tol ∧ err_phi ≤ ops.err_phi_tol) := by
        rcases h with h | h
        · exact fun hc => absurd hc.1 (not_le.mpr h)
        · exact fun hc => absurd hc.2 (not_le.mpr h)
      exact ⟨Or.inr hrun, by simp [hrun, hguard], fun hc => absurd hc hguard,
        fun _ => hrun⟩
    · have hle : err_k ≤ ops.err_k_tol ∧ err_phi ≤ ops.err_phi_tol := by
        push_neg at h
        exact h
      have hexit : eigen_iterations_loop ops (fuel + 1) err_k err_phi s =
          some s := by
        show (if err_k > ops.err_k_tol ∨ err_phi > ops.err_phi_tol
              then _ else _) = _
        rw [if_neg h]
      refine ⟨Or.inl hexit, ?_, fun _ => hexit, fun hc => absurd hc h⟩
      constructor
      · intro heq
        exact Or.inr (heq.symm.trans hexit)
      · rintro (hc | hc)
        · exact absurd hle hc
        · rw [hexit, hc]
  · intro S ops t hdiv fuel
    induction fuel generalizing t with
    | zero => rfl
    | succ fuel ih =>
      have h0 : t.1 > ops.err_k_tol ∨ t.2.1 > ops.err_phi_tol := hdiv 0
      show (if t.1 > ops.err_k_tol ∨ t.2.1 > ops.err_phi_tol
            then _ else _) = _
      rw [if_pos h0]
      have hnext : ∀ n : Nat,
          (pi_iterate ops (pi_step ops t.2.2) n).1 > ops.err_k_tol ∨
          (pi_iterate ops (pi_step ops t.2.2) n).2.1 > ops.err_phi_tol := by
        intro n
        rw [pi_iterate_shift ops t n]
        exact hdiv (n + 1)
      exact ih (pi_step ops t.2.2) hnext

end BART
